import Mathlib

/-
Verification of the markdown render core of sheetsui
(src/ui/render/markdown.rs): a stateful translator from a stream of
markdown events to styled display lines, a deduplicated link registry,
and a digit-key selection mapper.

The Rust code is shallowly embedded: `ratatui` styles, spans and lines
become plain structures; the `pulldown_cmark` event vocabulary becomes an
inductive type; the mutable fold in `Markdown::parse` becomes a pure step
function on an explicit parser state.  The context stack `state_stack`
(Rust `Vec` with push/pop at the end, `iter().rev()` from the end) is a
Lean list with the TOP at the HEAD: Rust push is cons, Rust pop is tail,
`iter().rev()` is left-to-right traversal, and the stack bottom is the
last element.  The `BTreeSet<String>` link registry is a sorted
duplicate-free list with an ordered insert.  The `todo!()` arms on
unsupported tags (blockquote, strikethrough, superscript, subscript) are
modelled as `none`: the step aborts the whole parse, mirroring the panic.
-/

namespace Sheets

-- pulldown_cmark::HeadingLevel
inductive HeadingLevel
  | h1 | h2 | h3 | h4 | h5 | h6
deriving DecidableEq, Repr

-- Only Color::Blue is used by the source.
inductive MdColor
  | blue
deriving DecidableEq, Repr

-- ratatui Style, restricted to the attributes the source manipulates:
-- BOLD and ITALIC modifiers and a foreground color.
structure MdStyle where
  bold : Bool := false
  italic : Bool := false
  fg : Option MdColor := none
deriving DecidableEq, Repr

-- ratatui Span: a text fragment plus its style.  Span::raw is unstyled.
structure MdSpan where
  content : String
  style : MdStyle
deriving DecidableEq, Repr

def MdSpan.raw (s : String) : MdSpan := ⟨s, {}⟩

-- ratatui Line: a line-level style plus a list of spans.
-- Line::default() is an unstyled line with no spans.
structure MdLine where
  style : MdStyle := {}
  spans : List MdSpan := []
deriving DecidableEq, Repr

-- ratatui Line::styled(content, style): one raw span holding `content`,
-- with the style recorded at line level.
def MdLine.styled (content : String) (st : MdStyle) : MdLine :=
  { style := st, spans := [MdSpan.raw content] }

-- ListType from the source.
inductive ListType
  | Ordered | Unordered
deriving DecidableEq, Repr

-- ListState from the source.
structure ListState where
  list_type : ListType
  nesting_level : Nat
  item_number : Nat
deriving DecidableEq, Repr

-- MarkdownState from the source: the context-stack alphabet.
inductive MarkdownState
  | Normal
  | Heading (level : HeadingLevel)
  | Strong
  | Emphasis
  | Code
  | List (ls : ListState)
deriving DecidableEq, Repr

-- pulldown_cmark::LinkType.
inductive LinkType
  | Inline
  | Reference
  | ReferenceUnknown
  | Collapsed
  | CollapsedUnknown
  | Shortcut
  | ShortcutUnknown
  | Autolink
  | Email
  | WikiLink (has_pothole : Bool)
deriving DecidableEq, Repr

-- pulldown_cmark::Tag, restricted to the variants the source matches on;
-- `Other` stands for the remaining variants, all handled by the noop
-- catch-all arm.
inductive Tag
  | Heading (level : HeadingLevel)
  | Paragraph
  | Strong
  | Emphasis
  | CodeBlock
  | List (start_number : Option Nat)
  | Item
  | Link (link_type : LinkType) (dest_url title id : String)
  | BlockQuote
  | Strikethrough
  | Superscript
  | Subscript
  | Other
deriving DecidableEq, Repr

-- pulldown_cmark::TagEnd, same restriction; `Other` covers the `_ => {}` arm.
inductive TagEnd
  | Heading
  | Paragraph
  | Strong
  | Emphasis
  | CodeBlock
  | Item
  | List
  | Link
  | BlockQuote
  | Strikethrough
  | Superscript
  | Subscript
  | Other
deriving DecidableEq, Repr

-- pulldown_cmark::Event as consumed by `Markdown::parse`.
inductive Event
  | Start (tag : Tag)
  | End (tag : TagEnd)
  | Text (s : String)
  | Code (s : String)
  | InlineMath (s : String)
  | DisplayMath (s : String)
  | Html (s : String)
  | InlineHtml (s : String)
  | SoftBreak
  | HardBreak
  | FootnoteReference (s : String)
  | Rule
  | TaskListMarker (checked : Bool)
deriving DecidableEq, Repr

/-
The link registry: `BTreeSet<String>` is a sorted duplicate-free list.
`insertSorted` is BTreeSet::insert — it walks to the ordered position and
drops the new element when an equal one is present.
-/

def insertSorted {α : Type} [LinearOrder α] (a : α) : List α → List α
  | [] => [a]
  | x :: xs =>
      if a < x then a :: x :: xs
      else if a = x then x :: xs
      else x :: insertSorted a xs

-- The display string computed by `handle_link_tag` for a link tag's fields.
def linkDest (link_type : LinkType) (dest_url title id : String) : String :=
  match link_type with
  | .Inline => "(" ++ dest_url ++ ")"
  | .Reference => "[" ++ id ++ "]"
  | .Shortcut => "[" ++ title ++ "]"
  | .ReferenceUnknown => "[unknown]"
  | .Collapsed => "[collapsed]"
  | .CollapsedUnknown => "[collapsed unknown]"
  | .ShortcutUnknown => "[shortcut unknown]"
  | .Autolink => dest_url
  | .Email => dest_url
  | .WikiLink _ => "[wiki]"

-- Markdown::handle_link_tag: formats a link tag and inserts the result
-- into the registry; any other tag is a noop.
def handle_link_tag (tag : Tag) (links : List String) : List String :=
  match tag with
  | .Link link_type dest_url title id =>
      insertSorted (linkDest link_type dest_url title id) links
  | _ => links

-- The heading style table from Tag::Heading handling.
def headingStyle (level : HeadingLevel) : MdStyle :=
  match level with
  | .h1 => { bold := true }
  | .h2 => { italic := true }
  | _ => { fg := some MdColor.blue }

-- The style scan over the context stack performed for text-like events:
-- innermost (head) to outermost, stop at a Heading, accumulate BOLD per
-- Strong and ITALIC per Emphasis.
def styleScan (acc : MdStyle) : List MarkdownState → MdStyle
  | [] => acc
  | .Heading _ :: _ => acc
  | .Strong :: rest => styleScan { acc with bold := true } rest
  | .Emphasis :: rest => styleScan { acc with italic := true } rest
  | _ :: rest => styleScan acc rest

def computeStyle (stack : List MarkdownState) : MdStyle := styleScan {} stack

-- The Tag::Item loop: walk the stack from the top, increment the first
-- List context found and stop; report the incremented ListState when one
-- was found.
def bumpItem : List MarkdownState → List MarkdownState × Option ListState
  | [] => ([], none)
  | .List ls :: rest =>
      (.List { ls with item_number := ls.item_number + 1 } :: rest,
       some { ls with item_number := ls.item_number + 1 })
  | s :: rest =>
      let r := bumpItem rest
      (s :: r.1, r.2)

-- str::repeat.
def strRepeat (s : String) : Nat → String
  | 0 => ""
  | n + 1 => s ++ strRepeat s n

-- The indent-plus-marker span text appended at an Item start, from the
-- (already incremented) ListState found on the stack.
def itemMarker (ls : ListState) : String :=
  strRepeat "  " ls.nesting_level ++
    (match ls.list_type with
     | .Unordered => "* "
     | .Ordered => toString ls.item_number ++ ". ")

-- The local state of the fold in Markdown::parse, plus the links field of
-- the Markdown struct (mutated through handle_link_tag).
structure ParseState where
  current_line : MdLine
  lines : List MdLine
  state_stack : List MarkdownState
  links : List String
deriving DecidableEq, Repr

def initState : ParseState :=
  { current_line := {}, lines := [], state_stack := [.Normal], links := [] }

-- The `if !current_line.spans.is_empty() { lines.push(..); current_line =
-- default }` pattern shared by Paragraph/List/Item starts and Item end.
def flushed (st : ParseState) : ParseState :=
  if st.current_line.spans = [] then st
  else { st with lines := st.lines ++ [st.current_line], current_line := {} }

-- Text-like leaf events: append the payload as one span styled by the
-- stack scan.
def appendTextLike (st : ParseState) (s : String) : ParseState :=
  { st with current_line := { st.current_line with
      spans := st.current_line.spans ++ [⟨s, computeStyle st.state_stack⟩] } }

/-
One iteration of the event loop of Markdown::parse.  `none` models the
`todo!()` panic on the four unsupported start tags; every other event
produces a new state.  Rust's `Vec::pop` on the stack is `List.tail`
(a silent no-op on an empty stack, as in Rust where `pop` returns `None`).
-/
def step (st : ParseState) (e : Event) : Option ParseState :=
  match e with
  | .Start tag =>
    match tag with
    | .Heading level =>
        some { st with
          lines := st.lines ++
            (if st.current_line.spans = [] then [] else [st.current_line]),
          current_line := MdLine.styled "" (headingStyle level),
          state_stack := .Heading level :: st.state_stack }
    | .Paragraph => some (flushed st)
    | .Strong => some { st with state_stack := .Strong :: st.state_stack }
    | .Emphasis => some { st with state_stack := .Emphasis :: st.state_stack }
    | .CodeBlock => some { st with state_stack := .Code :: st.state_stack }
    | .List start_number =>
        let st' := flushed st
        let lt : ListType :=
          match start_number with
          | some _ => .Ordered
          | none => .Unordered
        let nest :=
          (st'.state_stack.filter (fun s =>
            match s with
            | .List _ => true
            | _ => false)).length
        some { st' with state_stack :=
          MarkdownState.List ⟨lt, nest, 0⟩ :: st'.state_stack }
    | .Item =>
        let st' := flushed st
        let r := bumpItem st'.state_stack
        match r.2 with
        | some ls =>
            some { st' with
              state_stack := r.1,
              current_line := { st'.current_line with
                spans := st'.current_line.spans ++ [MdSpan.raw (itemMarker ls)] } }
        | none => some { st' with state_stack := r.1 }
    | .Link _ _ _ _ => some { st with links := handle_link_tag tag st.links }
    | .BlockQuote => none
    | .Strikethrough => none
    | .Superscript => none
    | .Subscript => none
    | .Other => some st
  | .End tag =>
    match tag with
    | .Heading =>
        some { st with
          lines := st.lines ++ [st.current_line, {}],
          current_line := {},
          state_stack := st.state_stack.tail }
    | .Paragraph =>
        some { st with
          lines := st.lines ++ [st.current_line, {}],
          current_line := {} }
    | .Strong => some { st with state_stack := st.state_stack.tail }
    | .Emphasis => some { st with state_stack := st.state_stack.tail }
    | .CodeBlock => some { st with state_stack := st.state_stack.tail }
    | .Item => some (flushed st)
    | .List => some { st with state_stack := st.state_stack.tail }
    | _ => some st
  | .Text s => some (appendTextLike st s)
  | .Code s => some (appendTextLike st s)
  | .InlineMath s => some (appendTextLike st s)
  | .DisplayMath s => some (appendTextLike st s)
  | .Html s => some (appendTextLike st s)
  | .InlineHtml s => some (appendTextLike st s)
  | .SoftBreak =>
      some { st with current_line := { st.current_line with
        spans := st.current_line.spans ++ [MdSpan.raw " "] } }
  | .HardBreak =>
      some { st with lines := st.lines ++ [st.current_line], current_line := {} }
  | .FootnoteReference _ => some st
  | .Rule => some st
  | .TaskListMarker _ => some st

-- The whole event loop.
def processEvents (st : ParseState) : List Event → Option ParseState
  | [] => some st
  | e :: es =>
      match step st e with
      | some st' => processEvents st' es
      | none => none

-- Markdown::parse on an event stream: run the loop from the initial
-- state, then flush a non-empty trailing line.  Yields the parsed lines
-- and the link registry, or `none` when the loop hit a `todo!()` arm.
def parse (events : List Event) : Option (List MdLine × List String) :=
  match processEvents initState events with
  | some st =>
      some (st.lines ++
        (if st.current_line.spans = [] then [] else [st.current_line]),
        st.links)
  | none => none

-- crossterm KeyCode, restricted to what handle_input inspects.
inductive KeyCode
  | Char (c : Char)
  | Other
deriving DecidableEq, Repr

-- The digit match at the top of Markdown::handle_input: KeyCode::Char('0')
-- through KeyCode::Char('9'), written as the equivalent equality chain.
def keyToNum (code : KeyCode) : Option Nat :=
  match code with
  | .Char c =>
      if c = '0' then some 0
      else if c = '1' then some 1
      else if c = '2' then some 2
      else if c = '3' then some 3
      else if c = '4' then some 4
      else if c = '5' then some 5
      else if c = '6' then some 6
      else if c = '7' then some 7
      else if c = '8' then some 8
      else if c = '9' then some 9
      else none
  | .Other => none

-- Markdown::handle_input: digit key to n-th registry entry.
def handle_input (links : List String) (code : KeyCode) : Option String :=
  match keyToNum code with
  | some num => links.get? num
  | none => none

/- Derived predicates on contexts, used to state the claims. -/

def MarkdownState.isList : MarkdownState → Bool
  | .List _ => true
  | _ => false

def MarkdownState.isHeading : MarkdownState → Bool
  | .Heading _ => true
  | _ => false

def MarkdownState.isStrong : MarkdownState → Bool
  | .Strong => true
  | _ => false

def MarkdownState.isEmphasis : MarkdownState → Bool
  | .Emphasis => true
  | _ => false

/-- Modelled from the spec: the external tokenizer (pulldown_cmark, not
part of this repository's sources) emits, for an input that is a single
paragraph of plain text with no markup, the stream
Start Paragraph, Text s, End Paragraph. -/
def plainParagraphEvents (s : String) : List Event :=
  [.Start .Paragraph, .Text s, .End .Paragraph]

/-- The Selection Mapper contract as the spec words it: an ASCII digit
key with value n selects the n-th registry entry when n is in range;
every other symbol, and every out-of-range digit, yields no selection. -/
def selectionSpec (links : List String) (code : KeyCode) : Option String :=
  match code with
  | .Char c =>
      if h : c.isDigit = true ∧ c.toNat - 48 < links.length
      then some (links.get ⟨c.toNat - 48, h.2⟩)
      else none
  | .Other => none

/- Registry lemmas: insertSorted is a set insert on sorted lists. -/

theorem mem_insertSorted {α : Type} [LinearOrder α] (a b : α) (l : List α) :
    b ∈ insertSorted a l ↔ b = a ∨ b ∈ l := by
  induction l with
  | nil => simp [insertSorted]
  | cons x xs ih =>
    by_cases h1 : a < x
    · simp [insertSorted, h1]
    by_cases h2 : a = x
    · subst h2
      simp only [insertSorted, if_neg h1, if_pos rfl]
      constructor
      · intro h; exact Or.inr h
      · rintro (h | h)
        · exact h ▸ List.mem_cons_self _ _
        · exact h
    · simp only [insertSorted, if_neg h1, if_neg h2, List.mem_cons, ih]
      tauto

theorem insertSorted_sorted {α : Type} [LinearOrder α] (a : α) (l : List α)
    (h : l.Sorted (· < ·)) : (insertSorted a l).Sorted (· < ·) := by
  induction l with
  | nil => simp [insertSorted]
  | cons x xs ih =>
    rw [List.sorted_cons] at h
    by_cases h1 : a < x
    · rw [insertSorted, if_pos h1, List.sorted_cons]
      refine ⟨?_, List.sorted_cons.mpr h⟩
      intro b hb
      rcases List.mem_cons.mp hb with hb | hb
      · exact hb ▸ h1
      · exact lt_trans h1 (h.1 b hb)
    by_cases h2 : a = x
    · rw [insertSorted, if_neg h1, if_pos h2]
      exact List.sorted_cons.mpr h
    · rw [insertSorted, if_neg h1, if_neg h2, List.sorted_cons]
      refine ⟨?_, ih h.2⟩
      intro b hb
      rcases (mem_insertSorted a b xs).mp hb with hb | hb
      · rcases lt_trichotomy a x with hlt | heq | hgt
        · exact absurd hlt h1
        · exact absurd heq h2
        · exact hb.symm ▸ hgt
      · exact h.1 b hb

theorem insertSorted_of_mem {α : Type} [LinearOrder α] (a : α) (l : List α)
    (hs : l.Sorted (· < ·)) (hm : a ∈ l) : insertSorted a l = l := by
  induction l with
  | nil => cases hm
  | cons x xs ih =>
    rw [List.sorted_cons] at hs
    rcases List.mem_cons.mp hm with hm | hm
    · subst hm
      rw [insertSorted, if_neg (lt_irrefl a), if_pos rfl]
    · have hx : x < a := hs.1 a hm
      rw [insertSorted, if_neg (asymm hx), if_neg (ne_of_gt hx), ih hs.2 hm]

theorem insertSorted_idem {α : Type} [LinearOrder α] (a : α) (l : List α) :
    insertSorted a (insertSorted a l) = insertSorted a l := by
  induction l with
  | nil =>
    simp [insertSorted]
  | cons x xs ih =>
    by_cases h1 : a < x
    · rw [insertSorted, if_pos h1]
      rw [insertSorted, if_neg (lt_irrefl a), if_pos rfl]
    by_cases h2 : a = x
    · rw [insertSorted, if_neg h1, if_pos h2]
      rw [insertSorted, if_neg h1, if_pos h2]
    · rw [insertSorted, if_neg h1, if_neg h2]
      rw [insertSorted, if_neg h1, if_neg h2, ih]

theorem length_insertSorted_of_not_mem {α : Type} [LinearOrder α] (a : α)
    (l : List α) (hm : a ∉ l) :
    (insertSorted a l).length = l.length + 1 := by
  induction l with
  | nil => simp [insertSorted]
  | cons x xs ih =>
    have hax : a ≠ x := fun h => hm (h ▸ List.mem_cons_self x xs)
    have hxs : a ∉ xs := fun h => hm (List.mem_cons_of_mem x h)
    by_cases h1 : a < x
    · simp [insertSorted, h1]
    · simp [insertSorted, h1, hax, ih hxs]

-- Folding a list of formatted strings into the registry.
def registryOf (ds : List String) : List String :=
  ds.foldl (fun l d => insertSorted d l) []

theorem registryOf_go (ds : List String) :
    ∀ l : List String, l.Sorted (· < ·) →
      (ds.foldl (fun l d => insertSorted d l) l).Sorted (· < ·) ∧
      ∀ b, b ∈ ds.foldl (fun l d => insertSorted d l) l ↔ b ∈ ds ∨ b ∈ l := by
  induction ds with
  | nil => intro l hs; simpa using hs
  | cons d ds ih =>
    intro l hs
    have h1 := ih (insertSorted d l) (insertSorted_sorted d l hs)
    refine ⟨h1.1, ?_⟩
    intro b
    rw [List.foldl_cons, (h1.2 b), mem_insertSorted]
    simp only [List.mem_cons]
    tauto

theorem registryOf_length (ds : List String) (hd : ds.Nodup) :
    (registryOf ds).length = ds.length := by
  have h := registryOf_go ds [] (by simp)
  have hnd : (registryOf ds).Nodup := h.1.nodup
  have hperm : (registryOf ds).Perm ds := by
    rw [List.perm_ext_iff_of_nodup hnd hd]
    intro b
    rw [registryOf]
    rw [h.2 b]
    simp
  exact hperm.length_eq

/- Characterization of the style scan for text-like leaves. -/

theorem styleScan_eq (stack : List MarkdownState) : ∀ acc : MdStyle,
    styleScan acc stack =
      { bold := acc.bold ||
          (stack.takeWhile (fun c => !c.isHeading)).any MarkdownState.isStrong,
        italic := acc.italic ||
          (stack.takeWhile (fun c => !c.isHeading)).any MarkdownState.isEmphasis,
        fg := acc.fg } := by
  induction stack with
  | nil => intro acc; simp [styleScan]
  | cons c cs ih =>
    intro acc
    cases c <;>
      simp [styleScan, MarkdownState.isHeading, MarkdownState.isStrong,
        MarkdownState.isEmphasis, ih, List.takeWhile, Bool.or_assoc]

theorem computeStyle_eq (stack : List MarkdownState) :
    computeStyle stack =
      { bold := (stack.takeWhile (fun c => !c.isHeading)).any MarkdownState.isStrong,
        italic := (stack.takeWhile (fun c => !c.isHeading)).any MarkdownState.isEmphasis,
        fg := none } := by
  rw [computeStyle, styleScan_eq]
  rfl

/- Characterization of the Tag::Item stack walk. -/

theorem bumpItem_no_list (s : List MarkdownState)
    (h : ∀ c ∈ s, c.isList = false) : bumpItem s = (s, none) := by
  induction s with
  | nil => rfl
  | cons c cs ih =>
    have hc := h c (List.mem_cons_self c cs)
    have ih' := ih (fun x hx => h x (List.mem_cons_of_mem c hx))
    cases c <;> simp_all [bumpItem, MarkdownState.isList]

theorem bumpItem_found (pre : List MarkdownState) (ls : ListState)
    (post : List MarkdownState) (hpre : ∀ c ∈ pre, c.isList = false) :
    bumpItem (pre ++ .List ls :: post) =
      (pre ++ .List { ls with item_number := ls.item_number + 1 } :: post,
       some { ls with item_number := ls.item_number + 1 }) := by
  induction pre with
  | nil => rfl
  | cons c cs ih =>
    have hc := hpre c (List.mem_cons_self c cs)
    have ih' := ih (fun x hx => hpre x (List.mem_cons_of_mem c hx))
    cases c <;> simp_all [bumpItem, MarkdownState.isList]

/- Basic facts about the shared flush. -/

theorem flushed_links (st : ParseState) : (flushed st).links = st.links := by
  rw [flushed]; split <;> rfl

theorem flushed_stack (st : ParseState) :
    (flushed st).state_stack = st.state_stack := by
  rw [flushed]; split <;> rfl

theorem flushed_spans (st : ParseState) :
    (flushed st).current_line.spans = [] ∨ st.current_line.spans = [] := by
  rw [flushed]; split
  · right; assumption
  · left; rfl

/- How a step changes the registry: unchanged, except on a link start. -/

theorem step_links (st : ParseState) (e : Event) (st' : ParseState)
    (h : step st e = some st') :
    st'.links = st.links ∨
    ∃ lt url title id, e = .Start (.Link lt url title id) ∧
      st'.links = insertSorted (linkDest lt url title id) st.links := by
  cases e with
  | Start tag =>
    cases tag <;> simp only [step] at h
    case Heading level => injection h with h; subst h; left; rfl
    case Paragraph => injection h with h; subst h; left; exact flushed_links st
    case Strong => injection h with h; subst h; left; rfl
    case Emphasis => injection h with h; subst h; left; rfl
    case CodeBlock => injection h with h; subst h; left; rfl
    case List start_number =>
      injection h with h; subst h; left; exact flushed_links st
    case Item =>
      split at h <;> (injection h with h; subst h; left; exact flushed_links st)
    case Link lt url title id =>
      injection h with h; subst h; right
      exact ⟨lt, url, title, id, rfl, rfl⟩
    case Other => injection h with h; subst h; left; rfl
    case BlockQuote => cases h
    case Strikethrough => cases h
    case Superscript => cases h
    case Subscript => cases h
  | End tag =>
    left
    cases tag <;> simp only [step] at h <;> (injection h with h; subst h) <;>
      first
      | rfl
      | exact flushed_links st
  | Text s => injection h with h; subst h; left; rfl
  | Code s => injection h with h; subst h; left; rfl
  | InlineMath s => injection h with h; subst h; left; rfl
  | DisplayMath s => injection h with h; subst h; left; rfl
  | Html s => injection h with h; subst h; left; rfl
  | InlineHtml s => injection h with h; subst h; left; rfl
  | SoftBreak => injection h with h; subst h; left; rfl
  | HardBreak => injection h with h; subst h; left; rfl
  | FootnoteReference s => injection h with h; subst h; left; rfl
  | Rule => injection h with h; subst h; left; rfl
  | TaskListMarker b => injection h with h; subst h; left; rfl

theorem step_links_mono (st : ParseState) (e : Event) (st' : ParseState)
    (h : step st e = some st') : ∀ x ∈ st.links, x ∈ st'.links := by
  intro x hx
  rcases step_links st e st' h with h1 | ⟨lt, url, title, id, _, h1⟩
  · exact h1 ▸ hx
  · rw [h1, mem_insertSorted]
    exact Or.inr hx

theorem processEvents_links_sorted (es : List Event) :
    ∀ st : ParseState, st.links.Sorted (· < ·) →
      ∀ st', processEvents st es = some st' → st'.links.Sorted (· < ·) := by
  induction es with
  | nil =>
    intro st hs st' h
    injection h with h
    exact h ▸ hs
  | cons e es ih =>
    intro st hs st' h
    rw [processEvents] at h
    cases hstep : step st e with
    | none => rw [hstep] at h; cases h
    | some st1 =>
      rw [hstep] at h
      refine ih st1 ?_ st' h
      rcases step_links st e st1 hstep with h1 | ⟨lt, url, title, id, _, h1⟩
      · exact h1 ▸ hs
      · exact h1 ▸ insertSorted_sorted _ _ hs

/- The digit match of handle_input, as a function of the character. -/

theorem keyToNum_char (c : Char) :
    keyToNum (.Char c) = if c.isDigit = true then some (c.toNat - 48) else none := by
  simp only [keyToNum]
  by_cases h0 : c = '0'
  · subst h0; decide
  rw [if_neg h0]
  by_cases h1 : c = '1'
  · subst h1; decide
  rw [if_neg h1]
  by_cases h2 : c = '2'
  · subst h2; decide
  rw [if_neg h2]
  by_cases h3 : c = '3'
  · subst h3; decide
  rw [if_neg h3]
  by_cases h4 : c = '4'
  · subst h4; decide
  rw [if_neg h4]
  by_cases h5 : c = '5'
  · subst h5; decide
  rw [if_neg h5]
  by_cases h6 : c = '6'
  · subst h6; decide
  rw [if_neg h6]
  by_cases h7 : c = '7'
  · subst h7; decide
  rw [if_neg h7]
  by_cases h8 : c = '8'
  · subst h8; decide
  rw [if_neg h8]
  by_cases h9 : c = '9'
  · subst h9; decide
  rw [if_neg h9]
  have hnd : ¬ c.isDigit = true := by
    intro hd
    have hb : 48 ≤ c.toNat ∧ c.toNat ≤ 57 := by
      simpa [Char.isDigit] using hd
    have h10 : c.toNat = 48 ∨ c.toNat = 49 ∨ c.toNat = 50 ∨ c.toNat = 51 ∨
        c.toNat = 52 ∨ c.toNat = 53 ∨ c.toNat = 54 ∨ c.toNat = 55 ∨
        c.toNat = 56 ∨ c.toNat = 57 := by omega
    have hofn := Char.ofNat_toNat c
    rcases h10 with h | h | h | h | h | h | h | h | h | h
    · exact h0 (by rw [← hofn, h])
    · exact h1 (by rw [← hofn, h])
    · exact h2 (by rw [← hofn, h])
    · exact h3 (by rw [← hofn, h])
    · exact h4 (by rw [← hofn, h])
    · exact h5 (by rw [← hofn, h])
    · exact h6 (by rw [← hofn, h])
    · exact h7 (by rw [← hofn, h])
    · exact h8 (by rw [← hofn, h])
    · exact h9 (by rw [← hofn, h])
  rw [if_neg hnd]

/- Claim theorems. -/

/-- C1: every link-start event computes exactly one display string by link
type — Inline gives "(" ++ url ++ ")", Reference gives "[" ++ id ++ "]",
Shortcut gives "[" ++ title ++ "]", ReferenceUnknown gives "[unknown]",
Collapsed gives "[collapsed]", CollapsedUnknown gives
"[collapsed unknown]", ShortcutUnknown gives "[shortcut unknown]",
Autolink and Email give the raw url unwrapped, and WikiLink (either
pothole flag) gives "[wiki]" — and inserts that string into the
registry set. -/
theorem C1_link_format (st : ParseState) (lt : LinkType) (url title id : String) :
    step st (.Start (.Link lt url title id)) =
      some { st with links := insertSorted (linkDest lt url title id) st.links } ∧
    linkDest lt url title id ∈ handle_link_tag (.Link lt url title id) st.links ∧
    linkDest .Inline url title id = "(" ++ url ++ ")" ∧
    linkDest .Reference url title id = "[" ++ id ++ "]" ∧
    linkDest .Shortcut url title id = "[" ++ title ++ "]" ∧
    linkDest .ReferenceUnknown url title id = "[unknown]" ∧
    linkDest .Collapsed url title id = "[collapsed]" ∧
    linkDest .CollapsedUnknown url title id = "[collapsed unknown]" ∧
    linkDest .ShortcutUnknown url title id = "[shortcut unknown]" ∧
    linkDest .Autolink url title id = url ∧
    linkDest .Email url title id = url ∧
    (∀ b : Bool, linkDest (.WikiLink b) url title id = "[wiki]") := by
  refine ⟨rfl, ?_, rfl, rfl, rfl, rfl, rfl, rfl, rfl, rfl, rfl, fun b => rfl⟩
  show linkDest lt url title id ∈ insertSorted (linkDest lt url title id) st.links
  exact (mem_insertSorted _ _ _).mpr (Or.inl rfl)

/-- C2: an Item start flushes a non-empty current line, increments the
item_number of the innermost List context, and appends one raw span that
is two spaces repeated nesting_level times followed by "* " (unordered)
or the new count plus ". " (ordered); consequently a concrete ordered
list numbers its items 1., 2., 3., and a nested list numbers
independently with a two-space-deeper indent. -/
theorem C2_item (st : ParseState) (pre post : List MarkdownState) (ls : ListState)
    (hstack : st.state_stack = pre ++ .List ls :: post)
    (hpre : ∀ c ∈ pre, c.isList = false) :
    step st (.Start .Item) = some
      { current_line :=
          { style := if st.current_line.spans = [] then st.current_line.style else {},
            spans := [MdSpan.raw
              (itemMarker ⟨ls.list_type, ls.nesting_level, ls.item_number + 1⟩)] },
        lines := st.lines ++
          (if st.current_line.spans = [] then [] else [st.current_line]),
        state_stack :=
          pre ++ .List ⟨ls.list_type, ls.nesting_level, ls.item_number + 1⟩ :: post,
        links := st.links } ∧
    (∀ n k, itemMarker ⟨.Unordered, n, k⟩ = strRepeat "  " n ++ "* ") ∧
    (∀ n k, itemMarker ⟨.Ordered, n, k⟩ = strRepeat "  " n ++ (toString k ++ ". ")) ∧
    parse [.Start (.List (some 1)),
           .Start .Item, .Text "a", .End .Item,
           .Start .Item, .Text "b", .End .Item,
           .Start .Item,
           .Start (.List none), .Start .Item, .Text "n", .End .Item, .End .List,
           .End .Item,
           .End .List] =
      some ([{ style := {}, spans := [MdSpan.raw "1. ", ⟨"a", {}⟩] },
             { style := {}, spans := [MdSpan.raw "2. ", ⟨"b", {}⟩] },
             { style := {}, spans := [MdSpan.raw "3. "] },
             { style := {}, spans := [MdSpan.raw "  * ", ⟨"n", {}⟩] }], []) := by
  refine ⟨?_, fun n k => rfl, fun n k => rfl, rfl⟩
  have hb := bumpItem_found pre ls post hpre
  simp only [step, flushed_stack, hstack, hb]
  rw [flushed]
  by_cases hsp : st.current_line.spans = []
  · rw [if_pos hsp]
    simp [hsp]
  · rw [if_neg hsp]
    simp [hsp]

/-- C2 witness: starting an item with an ordered list on the stack bumps
its counter to 1 and emits the "1. " marker span. -/
theorem C2_item_witness :
    step { current_line := {}, lines := [],
           state_stack := [.List ⟨.Ordered, 0, 0⟩, .Normal], links := [] }
        (.Start .Item) =
      some { current_line := { style := {}, spans := [MdSpan.raw "1. "] },
             lines := [],
             state_stack := [.List ⟨.Ordered, 0, 1⟩, .Normal], links := [] } := by
  have h := C2_item
    { current_line := {}, lines := [],
      state_stack := [.List ⟨.Ordered, 0, 0⟩, .Normal], links := [] }
    [] [.Normal] ⟨.Ordered, 0, 0⟩ rfl (by simp)
  simpa using h.1

/-- C3: each of the six text-like leaf events appends the payload as one
span whose style is computed by scanning the stack innermost-first,
stopping at a Heading, adding Bold per Strong and Italic per Emphasis;
text inside both Strong and Emphasis is bold and italic. -/
theorem C3_text_style (st : ParseState) (s : String) :
    step st (.Text s) = some (appendTextLike st s) ∧
    step st (.Code s) = some (appendTextLike st s) ∧
    step st (.InlineMath s) = some (appendTextLike st s) ∧
    step st (.DisplayMath s) = some (appendTextLike st s) ∧
    step st (.Html s) = some (appendTextLike st s) ∧
    step st (.InlineHtml s) = some (appendTextLike st s) ∧
    appendTextLike st s = { st with current_line := { st.current_line with
        spans := st.current_line.spans ++ [⟨s, computeStyle st.state_stack⟩] } } ∧
    (∀ stack : List MarkdownState, computeStyle stack =
      { bold := (stack.takeWhile (fun c => !c.isHeading)).any MarkdownState.isStrong,
        italic := (stack.takeWhile (fun c => !c.isHeading)).any MarkdownState.isEmphasis,
        fg := none }) ∧
    computeStyle [.Emphasis, .Strong, .Normal] =
      { bold := true, italic := true, fg := none } :=
  ⟨rfl, rfl, rfl, rfl, rfl, rfl, rfl, computeStyle_eq, by decide⟩

/-- C4: a heading's line style is determined by its level — h1 bold, h2
italic, h3 through h6 blue foreground with neither bold nor italic — and
the heading end pushes the current line unconditionally, then exactly one
blank line, then pops the Heading context. -/
theorem C4_heading (st : ParseState) (level : HeadingLevel)
    (rest : List MarkdownState)
    (h : st.state_stack = .Heading level :: rest) :
    (∀ (st₀ : ParseState) (l : HeadingLevel),
      step st₀ (.Start (.Heading l)) = some { st₀ with
        lines := st₀.lines ++
          (if st₀.current_line.spans = [] then [] else [st₀.current_line]),
        current_line := { style := headingStyle l, spans := [MdSpan.raw ""] },
        state_stack := .Heading l :: st₀.state_stack }) ∧
    headingStyle .h1 = { bold := true, italic := false, fg := none } ∧
    headingStyle .h2 = { bold := false, italic := true, fg := none } ∧
    (∀ l, l ≠ .h1 → l ≠ .h2 →
      headingStyle l = { bold := false, italic := false, fg := some .blue }) ∧
    step st (.End .Heading) = some { st with
        lines := st.lines ++ [st.current_line, {}],
        current_line := {},
        state_stack := rest } := by
  refine ⟨fun st₀ l => rfl, rfl, rfl, ?_, ?_⟩
  · intro l h1 h2
    cases l
    · exact absurd rfl h1
    · exact absurd rfl h2
    all_goals rfl
  · simp [step, h]

/-- C4 witness: ending a level-1 heading from a heading context pushes the
(empty) current line and one blank line, and pops the Heading context. -/
theorem C4_heading_witness :
    step { current_line := {}, lines := [],
           state_stack := [.Heading .h1, .Normal], links := [] }
        (.End .Heading) =
      some { current_line := {}, lines := [({} : MdLine), {}],
             state_stack := [.Normal], links := [] } := by
  have h := C4_heading
    { current_line := {}, lines := [],
      state_stack := [.Heading .h1, .Normal], links := [] }
    .h1 [.Normal] rfl
  simpa using h.2.2.2.2

/-- C5: registry insertion is idempotent and deduplicating, the registry
stays lexicographically sorted and duplicate-free, N distinct formatted
strings give exactly N entries, and no step ever removes an entry. -/
theorem C5_registry (a : String) (l : List String) (ds : List String)
    (hs : l.Sorted (· < ·)) (hd : ds.Nodup) :
    insertSorted a (insertSorted a l) = insertSorted a l ∧
    (a ∈ l → insertSorted a l = l) ∧
    (insertSorted a l).Sorted (· < ·) ∧
    (insertSorted a l).Nodup ∧
    (∀ b, b ∈ insertSorted a l ↔ b = a ∨ b ∈ l) ∧
    (registryOf ds).length = ds.length ∧
    (∀ (st : ParseState) (e : Event) (st' : ParseState),
      step st e = some st' → ∀ x ∈ st.links, x ∈ st'.links) ∧
    (∀ (es : List Event) (st' : ParseState),
      processEvents initState es = some st' → st'.links.Sorted (· < ·)) := by
  refine ⟨insertSorted_idem a l, fun hm => insertSorted_of_mem a l hs hm,
    insertSorted_sorted a l hs, (insertSorted_sorted a l hs).nodup,
    fun b => mem_insertSorted a b l, registryOf_length ds hd,
    step_links_mono, ?_⟩
  intro es st' hp
  exact processEvents_links_sorted es initState (by simp [initState]) st' hp

/-- C5 witness: instantiation at a singleton sorted registry and a
two-element duplicate-free insertion sequence. -/
theorem C5_registry_witness :
    insertSorted "b" (insertSorted "b" ["a"]) = insertSorted "b" ["a"] ∧
    (insertSorted "b" ["a"]).Sorted (· < ·) ∧
    (registryOf ["x", "y"]).length = 2 := by
  have h := C5_registry "b" ["a"] ["x", "y"] (by simp) (by simp)
  exact ⟨h.1, h.2.2.1, h.2.2.2.2.2.1⟩

/-- C6: the selection operation returns the n-th registry entry exactly
when the key is an ASCII digit of value n less than the registry size,
and no selection in every other case. -/
theorem C6_selection (links : List String) (code : KeyCode) :
    handle_input links code = selectionSpec links code := by
  cases code with
  | Other => rfl
  | Char c =>
    by_cases hd : c.isDigit = true
    · by_cases hlt : c.toNat - 48 < links.length
      · have h1 : keyToNum (.Char c) = some (c.toNat - 48) := by
          rw [keyToNum_char, if_pos hd]
        simp only [handle_input, h1, selectionSpec]
        rw [dif_pos (⟨hd, hlt⟩ : c.isDigit = true ∧ c.toNat - 48 < links.length)]
        exact List.get?_eq_get hlt
      · have h1 : keyToNum (.Char c) = some (c.toNat - 48) := by
          rw [keyToNum_char, if_pos hd]
        simp only [handle_input, h1, selectionSpec]
        rw [dif_neg (fun hh : c.isDigit = true ∧ c.toNat - 48 < links.length => hlt hh.2)]
        exact List.get?_eq_none.mpr (le_of_not_lt hlt)
    · have h1 : keyToNum (.Char c) = none := by
        rw [keyToNum_char, if_neg hd]
      simp only [handle_input, h1, selectionSpec]
      rw [dif_neg (fun hh : c.isDigit = true ∧ c.toNat - 48 < links.length => hd hh.1)]

/-- C7 counterexample: on the plain single-paragraph input "a" the code
emits the text line plus a trailing blank line — two lines, not exactly
one. -/
theorem C7_counterexample :
    (parse (plainParagraphEvents "a")).map (fun r => r.1.length) = some 2 ∧
    parse (plainParagraphEvents "a") =
      some ([{ style := {}, spans := [⟨"a", {}⟩] }, ({} : MdLine)], []) :=
  ⟨rfl, rfl⟩

/-- C7 amended: parsing a plain single-paragraph input yields exactly one
Line holding one unstyled Span equal to the input, followed by one
trailing blank Line pushed by the paragraph-end rule. -/
theorem C7_plain_text (s : String) :
    parse (plainParagraphEvents s) =
      some ([{ style := {}, spans := [⟨s, {}⟩] }, ({} : MdLine)], []) := rfl

/-- C8: the code aborts the parse (the todo! panic, modelled as none) on a
blockquote, strikethrough, superscript or subscript start event instead
of completing with a Line sequence. -/
theorem C8_unsupported_aborts :
    parse [.Start .BlockQuote] = none ∧
    parse [.Start .Strikethrough] = none ∧
    parse [.Start .Superscript] = none ∧
    parse [.Start .Subscript] = none ∧
    parse [.Start .Paragraph, .Text "q", .End .Paragraph,
           .Start .BlockQuote, .Text "inner", .End .BlockQuote] = none :=
  ⟨rfl, rfl, rfl, rfl, rfl⟩

/-- C10: an Item start with no List context anywhere on the stack only
performs the flush: no marker span is appended, no counter changes, the
stack and registry are unchanged, and the step does not fail. -/
theorem C10_item_without_list (st : ParseState)
    (h : ∀ c ∈ st.state_stack, c.isList = false) :
    step st (.Start .Item) = some (flushed st) ∧
    (flushed st).state_stack = st.state_stack ∧
    (flushed st).links = st.links ∧
    (st.current_line.spans = [] → flushed st = st) ∧
    (st.current_line.spans ≠ [] →
      (flushed st).lines = st.lines ++ [st.current_line] ∧
      (flushed st).current_line = {}) := by
  have hb := bumpItem_no_list (flushed st).state_stack
    (by rw [flushed_stack]; exact h)
  refine ⟨?_, flushed_stack st, flushed_links st, ?_, ?_⟩
  · simp [step, hb]
  · intro hsp
    rw [flushed, if_pos hsp]
  · intro hsp
    rw [flushed, if_neg hsp]
    exact ⟨rfl, rfl⟩

/-- C10 witness: an item start on a listless stack flushes the pending
line and changes nothing else. -/
theorem C10_item_without_list_witness :
    step { current_line := { style := {}, spans := [MdSpan.raw "x"] },
           lines := [], state_stack := [.Normal], links := [] }
        (.Start .Item) =
      some (flushed { current_line := { style := {}, spans := [MdSpan.raw "x"] },
                      lines := [], state_stack := [.Normal], links := [] }) :=
  (C10_item_without_list _ (by simp [MarkdownState.isList])).1


/- Stack-discipline infrastructure for the balanced-stream invariant. -/

-- The shape of a context: its constructor and immutable payload, with the
-- mutable item counter erased.  "Popping exactly the context the matching
-- Start pushed" is shape preservation, since item counters of an enclosing
-- list may legitimately advance in between.
inductive CtxShape
  | normal
  | heading (level : HeadingLevel)
  | strong
  | emphasis
  | code
  | list (lt : ListType) (nest : Nat)
deriving DecidableEq, Repr

def MarkdownState.shape : MarkdownState → CtxShape
  | .Normal => .normal
  | .Heading l => .heading l
  | .Strong => .strong
  | .Emphasis => .emphasis
  | .Code => .code
  | .List ls => .list ls.list_type ls.nesting_level

def stackShapes (s : List MarkdownState) : List CtxShape :=
  s.map MarkdownState.shape

-- The invariant: a non-empty stack with Normal at the bottom.
def StackOK (s : List MarkdownState) : Prop :=
  s ≠ [] ∧ s.getLast? = some .Normal

def isLeaf : Event → Bool
  | .Start _ => false
  | .End _ => false
  | _ => true

-- Tags whose Start pushes one context.
def pushesCtx : Tag → Bool
  | .Heading _ => true
  | .Strong => true
  | .Emphasis => true
  | .CodeBlock => true
  | .List _ => true
  | _ => false

-- End tags that pop one context.
def popsCtx : TagEnd → Bool
  | .Heading => true
  | .Strong => true
  | .Emphasis => true
  | .CodeBlock => true
  | .List => true
  | _ => false

-- The end tag matching a start tag.
def endOf : Tag → TagEnd
  | .Heading _ => .Heading
  | .Paragraph => .Paragraph
  | .Strong => .Strong
  | .Emphasis => .Emphasis
  | .CodeBlock => .CodeBlock
  | .List _ => .List
  | .Item => .Item
  | .Link _ _ _ _ => .Link
  | .BlockQuote => .BlockQuote
  | .Strikethrough => .Strikethrough
  | .Superscript => .Superscript
  | .Subscript => .Subscript
  | .Other => .Other

-- Tags the translator supports (everything except the todo! arms).
def Tag.supported : Tag → Bool
  | .BlockQuote => false
  | .Strikethrough => false
  | .Superscript => false
  | .Subscript => false
  | _ => true

-- Well-formed, balanced event streams over the supported vocabulary: a
-- sequence of leaves and properly nested Start/End pairs.
inductive Balanced : List Event → Prop
  | nil : Balanced []
  | leaf (e : Event) (rest : List Event) :
      isLeaf e = true → Balanced rest → Balanced (e :: rest)
  | node (t : Tag) (body rest : List Event) :
      t.supported = true → Balanced body → Balanced rest →
      Balanced (.Start t :: (body ++ .End (endOf t) :: rest))

-- Every stack the fold passes through, including the initial one and the
-- one after the last event (cut short at an abort).
def stackTrace (st : ParseState) : List Event → List (List MarkdownState)
  | [] => [st.state_stack]
  | e :: es =>
      match step st e with
      | some st' => st.state_stack :: stackTrace st' es
      | none => [st.state_stack]

theorem popsCtx_endOf (t : Tag) : popsCtx (endOf t) = pushesCtx t := by
  cases t <;> rfl

theorem bumpItem_shapes (s : List MarkdownState) :
    stackShapes (bumpItem s).1 = stackShapes s := by
  induction s with
  | nil => rfl
  | cons c cs ih =>
    cases c <;>
      simp_all [bumpItem, stackShapes, MarkdownState.shape]

theorem bumpItem_length (s : List MarkdownState) :
    (bumpItem s).1.length = s.length := by
  have h := congrArg List.length (bumpItem_shapes s)
  simpa [stackShapes] using h

theorem StackOK_cons (c : MarkdownState) (s : List MarkdownState)
    (h : StackOK s) : StackOK (c :: s) := by
  obtain ⟨hne, hlast⟩ := h
  refine ⟨List.cons_ne_nil c s, ?_⟩
  cases s with
  | nil => exact absurd rfl hne
  | cons a t => rw [List.getLast?_cons_cons]; exact hlast

theorem shape_normal_iff (c : MarkdownState) :
    c.shape = .normal ↔ c = .Normal := by
  cases c <;> simp [MarkdownState.shape]

theorem StackOK_of_shapes {s s' : List MarkdownState}
    (h : stackShapes s' = stackShapes s) (hok : StackOK s) : StackOK s' := by
  obtain ⟨hne, hlast⟩ := hok
  constructor
  · intro h0
    rw [h0, stackShapes, List.map_nil] at h
    exact hne (List.map_eq_nil_iff.mp h.symm)
  · have h1 : (stackShapes s').getLast? = (stackShapes s).getLast? := by rw [h]
    rw [stackShapes, stackShapes, List.getLast?_map, List.getLast?_map, hlast] at h1
    cases hgl : s'.getLast? with
    | none => rw [hgl] at h1; cases h1
    | some c =>
      rw [hgl] at h1
      have h2 : MarkdownState.shape c = CtxShape.normal := by simpa using h1
      rw [(shape_normal_iff c).mp h2]

theorem stackShapes_tail (s : List MarkdownState) :
    stackShapes s.tail = (stackShapes s).tail := by
  rw [stackShapes, stackShapes]
  exact List.map_tail MarkdownState.shape s

theorem step_leaf (st : ParseState) (e : Event) (he : isLeaf e = true) :
    ∃ st', step st e = some st' ∧ st'.state_stack = st.state_stack := by
  cases e
  case Start tag => simp [isLeaf] at he
  case End tag => simp [isLeaf] at he
  all_goals exact ⟨_, rfl, rfl⟩

theorem step_start_push (st : ParseState) (t : Tag) (hp : pushesCtx t = true) :
    ∃ st' c, step st (.Start t) = some st' ∧
      st'.state_stack = c :: st.state_stack := by
  cases t
  case Heading level => exact ⟨_, _, rfl, rfl⟩
  case Strong => exact ⟨_, _, rfl, rfl⟩
  case Emphasis => exact ⟨_, _, rfl, rfl⟩
  case CodeBlock => exact ⟨_, _, rfl, rfl⟩
  case List n =>
    rw [← flushed_stack st]
    exact ⟨_, _, rfl, rfl⟩
  all_goals simp [pushesCtx] at hp

theorem step_start_neutral (st : ParseState) (t : Tag)
    (hs : t.supported = true) (hp : pushesCtx t = false) :
    ∃ st', step st (.Start t) = some st' ∧
      stackShapes st'.state_stack = stackShapes st.state_stack := by
  cases t
  case Paragraph =>
    exact ⟨_, rfl, by rw [flushed_stack]⟩
  case Item =>
    obtain ⟨st1, h1⟩ : ∃ st1, step st (.Start .Item) = some st1 := by
      simp only [step]
      cases hr : (bumpItem (flushed st).state_stack).2 <;> exact ⟨_, rfl⟩
    refine ⟨st1, h1, ?_⟩
    simp only [step] at h1
    cases hr : (bumpItem (flushed st).state_stack).2 with
    | some ls =>
      simp only [hr] at h1
      injection h1 with h1
      rw [← h1]
      show stackShapes (bumpItem (flushed st).state_stack).1 = _
      rw [bumpItem_shapes, flushed_stack]
    | none =>
      simp only [hr] at h1
      injection h1 with h1
      rw [← h1]
      show stackShapes (bumpItem (flushed st).state_stack).1 = _
      rw [bumpItem_shapes, flushed_stack]
  case Link lt url title id => exact ⟨_, rfl, rfl⟩
  case Other => exact ⟨_, rfl, rfl⟩
  case Heading level => simp [pushesCtx] at hp
  case Strong => simp [pushesCtx] at hp
  case Emphasis => simp [pushesCtx] at hp
  case CodeBlock => simp [pushesCtx] at hp
  case List n => simp [pushesCtx] at hp
  case BlockQuote => simp [Tag.supported] at hs
  case Strikethrough => simp [Tag.supported] at hs
  case Superscript => simp [Tag.supported] at hs
  case Subscript => simp [Tag.supported] at hs

theorem step_end_pop (st : ParseState) (te : TagEnd) (hp : popsCtx te = true) :
    ∃ st', step st (.End te) = some st' ∧
      st'.state_stack = st.state_stack.tail := by
  cases te
  case Heading => exact ⟨_, rfl, rfl⟩
  case Strong => exact ⟨_, rfl, rfl⟩
  case Emphasis => exact ⟨_, rfl, rfl⟩
  case CodeBlock => exact ⟨_, rfl, rfl⟩
  case List => exact ⟨_, rfl, rfl⟩
  all_goals simp [popsCtx] at hp

theorem step_end_nopop (st : ParseState) (te : TagEnd) (hp : popsCtx te = false) :
    ∃ st', step st (.End te) = some st' ∧
      st'.state_stack = st.state_stack := by
  cases te
  case Paragraph => exact ⟨_, rfl, rfl⟩
  case Item => exact ⟨_, rfl, flushed_stack st⟩
  case Link => exact ⟨_, rfl, rfl⟩
  case BlockQuote => exact ⟨_, rfl, rfl⟩
  case Strikethrough => exact ⟨_, rfl, rfl⟩
  case Superscript => exact ⟨_, rfl, rfl⟩
  case Subscript => exact ⟨_, rfl, rfl⟩
  case Other => exact ⟨_, rfl, rfl⟩
  all_goals simp [popsCtx] at hp

theorem step_start_length (st : ParseState) (t : Tag) (st' : ParseState)
    (h : step st (.Start t) = some st') :
    st'.state_stack.length ≤ st.state_stack.length + 1 := by
  cases t <;> simp only [step] at h
  case Heading l => injection h with h; subst h; simp
  case Paragraph =>
    injection h with h; subst h; rw [flushed_stack]; omega
  case Strong => injection h with h; subst h; simp
  case Emphasis => injection h with h; subst h; simp
  case CodeBlock => injection h with h; subst h; simp
  case List n => injection h with h; subst h; simp [flushed_stack]
  case Item =>
    split at h <;>
      (injection h with h; subst h;
       show (bumpItem (flushed st).state_stack).1.length ≤ _;
       rw [bumpItem_length, flushed_stack]; omega)
  case Link lt url title id => injection h with h; subst h; exact Nat.le_succ _
  case BlockQuote => cases h
  case Strikethrough => cases h
  case Superscript => cases h
  case Subscript => cases h
  case Other => injection h with h; subst h; omega

theorem processEvents_append (as bs : List Event) :
    ∀ st stA, processEvents st as = some stA →
      processEvents st (as ++ bs) = processEvents stA bs := by
  induction as with
  | nil =>
    intro st stA h
    injection h with h
    rw [List.nil_append, h]
  | cons a as ih =>
    intro st stA h
    rw [processEvents] at h
    cases hs : step st a with
    | none => rw [hs] at h; cases h
    | some st1 =>
      rw [hs] at h
      rw [List.cons_append]
      simp only [processEvents, hs]
      exact ih st1 stA h

theorem stackTrace_mem_append (as bs : List Event) :
    ∀ st stA, processEvents st as = some stA →
      ∀ x ∈ stackTrace st (as ++ bs),
        x ∈ stackTrace st as ∨ x ∈ stackTrace stA bs := by
  induction as with
  | nil =>
    intro st stA h x hx
    injection h with h
    exact Or.inr (h ▸ hx)
  | cons a as ih =>
    intro st stA h x hx
    rw [processEvents] at h
    cases hs : step st a with
    | none => rw [hs] at h; cases h
    | some st1 =>
      rw [hs] at h
      rw [List.cons_append] at hx
      simp only [stackTrace, hs] at hx
      rcases List.mem_cons.mp hx with hx | hx
      · left
        simp only [stackTrace, hs]
        exact hx ▸ List.mem_cons_self _ _
      · rcases ih st1 stA h x hx with h1 | h1
        · left
          simp only [stackTrace, hs]
          exact List.mem_cons_of_mem _ h1
        · right; exact h1

theorem balanced_run (es : List Event) (hb : Balanced es) :
    ∀ st : ParseState, StackOK st.state_stack →
      ∃ st', processEvents st es = some st' ∧
        stackShapes st'.state_stack = stackShapes st.state_stack ∧
        ∀ s ∈ stackTrace st es, StackOK s := by
  induction hb with
  | nil =>
    intro st hok
    refine ⟨st, rfl, rfl, ?_⟩
    intro s hs
    simp only [stackTrace, List.mem_singleton] at hs
    exact hs ▸ hok
  | leaf e rest he hrest ih =>
    intro st hok
    obtain ⟨st1, hs1, hstk⟩ := step_leaf st e he
    obtain ⟨st', hp, hsh, htr⟩ := ih st1 (by rw [hstk]; exact hok)
    refine ⟨st', ?_, ?_, ?_⟩
    · simp only [processEvents, hs1]; exact hp
    · rw [hsh, hstk]
    · intro s hs
      simp only [stackTrace, hs1] at hs
      rcases List.mem_cons.mp hs with hs | hs
      · exact hs ▸ hok
      · exact htr s hs
  | node t body rest hsup hbody hrest ihbody ihrest =>
    intro st hok
    by_cases hp : pushesCtx t = true
    · obtain ⟨st1, c, hs1, hstk1⟩ := step_start_push st t hp
      have hok1 : StackOK st1.state_stack := by
        rw [hstk1]; exact StackOK_cons c _ hok
      obtain ⟨st2, hp2, hsh2, htr2⟩ := ihbody st1 hok1
      have hpop : popsCtx (endOf t) = true := by rw [popsCtx_endOf]; exact hp
      obtain ⟨st3, hs3, hstk3⟩ := step_end_pop st2 (endOf t) hpop
      have hsh2' : stackShapes st2.state_stack =
          MarkdownState.shape c :: stackShapes st.state_stack := by
        rw [hsh2, hstk1]; rfl
      have hok2 : StackOK st2.state_stack :=
        StackOK_of_shapes (by rw [hsh2, hstk1]) hok1
      have hsh3 : stackShapes st3.state_stack = stackShapes st.state_stack := by
        rw [hstk3, stackShapes_tail, hsh2']
        rfl
      have hok3 : StackOK st3.state_stack := StackOK_of_shapes hsh3 hok
      obtain ⟨st4, hp4, hsh4, htr4⟩ := ihrest st3 hok3
      refine ⟨st4, ?_, ?_, ?_⟩
      · simp only [processEvents, hs1]
        rw [processEvents_append body (.End (endOf t) :: rest) st1 st2 hp2]
        simp only [processEvents, hs3]
        exact hp4
      · rw [hsh4, hsh3]
      · intro s hs
        simp only [stackTrace, hs1] at hs
        rcases List.mem_cons.mp hs with hs | hs
        · exact hs ▸ hok
        · rcases stackTrace_mem_append body (.End (endOf t) :: rest)
            st1 st2 hp2 s hs with h1 | h1
          · exact htr2 s h1
          · simp only [stackTrace, hs3] at h1
            rcases List.mem_cons.mp h1 with h1 | h1
            · exact h1 ▸ hok2
            · exact htr4 s h1
    · have hp' : pushesCtx t = false := by
        cases hpc : pushesCtx t
        · rfl
        · exact absurd hpc hp
      obtain ⟨st1, hs1, hsh1⟩ := step_start_neutral st t hsup hp'
      have hok1 : StackOK st1.state_stack := StackOK_of_shapes hsh1 hok
      obtain ⟨st2, hp2, hsh2, htr2⟩ := ihbody st1 hok1
      have hpop : popsCtx (endOf t) = false := by rw [popsCtx_endOf]; exact hp'
      obtain ⟨st3, hs3, hstk3⟩ := step_end_nopop st2 (endOf t) hpop
      have hsh3 : stackShapes st3.state_stack = stackShapes st.state_stack := by
        rw [hstk3, hsh2, hsh1]
      have hok2 : StackOK st2.state_stack :=
        StackOK_of_shapes (by rw [hsh2, hsh1]) hok
      obtain ⟨st4, hp4, hsh4, htr4⟩ := ihrest st3 (StackOK_of_shapes hsh3 hok)
      refine ⟨st4, ?_, ?_, ?_⟩
      · simp only [processEvents, hs1]
        rw [processEvents_append body (.End (endOf t) :: rest) st1 st2 hp2]
        simp only [processEvents, hs3]
        exact hp4
      · rw [hsh4, hsh3]
      · intro s hs
        simp only [stackTrace, hs1] at hs
        rcases List.mem_cons.mp hs with hs | hs
        · exact hs ▸ hok
        · rcases stackTrace_mem_append body (.End (endOf t) :: rest)
            st1 st2 hp2 s hs with h1 | h1
          · exact htr2 s h1
          · simp only [stackTrace, hs3] at h1
            rcases List.mem_cons.mp h1 with h1 | h1
            · exact h1 ▸ hok2
            · exact htr4 s h1

/-- C9: on a well-formed balanced stream of supported events, the parse
never aborts, every intermediate context stack is non-empty with Normal
at the bottom (so Normal is never popped), the stack's shape is restored
after the stream (each End pops exactly the context — up to its mutable
item counter — that its matching Start pushed), every Start pushes at
most one context, and a pushing Start pushes exactly one context while
its matching End pops exactly one. -/
theorem C9_stack_discipline (es : List Event) (st : ParseState)
    (hb : Balanced es) (hok : StackOK st.state_stack) :
    (∃ st', processEvents st es = some st' ∧
      stackShapes st'.state_stack = stackShapes st.state_stack) ∧
    (∀ s ∈ stackTrace st es, StackOK s) ∧
    (∀ (st₀ : ParseState) (t : Tag) (st₁ : ParseState),
      step st₀ (.Start t) = some st₁ →
      st₁.state_stack.length ≤ st₀.state_stack.length + 1) ∧
    (∀ (st₀ : ParseState) (t : Tag),
      pushesCtx t = true →
      ∃ st₁ c, step st₀ (.Start t) = some st₁ ∧
        st₁.state_stack = c :: st₀.state_stack) ∧
    (∀ (st₀ : ParseState) (te : TagEnd),
      popsCtx te = true →
      ∃ st₁, step st₀ (.End te) = some st₁ ∧
        st₁.state_stack = st₀.state_stack.tail) := by
  obtain ⟨st', h1, h2, h3⟩ := balanced_run es hb st hok
  exact ⟨⟨st', h1, h2⟩, h3, step_start_length, step_start_push, step_end_pop⟩

/-- C9 witness: the invariant holds when running a strong-emphasis pair
around a text leaf from the initial state. -/
theorem C9_stack_discipline_witness :
    ∃ st', processEvents initState [.Start .Strong, .Text "x", .End .Strong] = some st' ∧
      stackShapes st'.state_stack = stackShapes initState.state_stack :=
  (C9_stack_discipline [.Start .Strong, .Text "x", .End .Strong] initState
    (Balanced.node .Strong [.Text "x"] [] rfl
      (Balanced.leaf (.Text "x") [] rfl Balanced.nil) Balanced.nil)
    ⟨by simp [initState], rfl⟩).1

end Sheets
